import Mathlib

/-!
Verification of the DistanceCalculator partition-compute-gather engine.

The definitions below are shallow embeddings of the C++ sources:
  - MPIWrapper.cc / MPIWrapper.h : transport flattening, partition planning,
    query distribution, gather, and the message-tag registry;
  - MathKernel.h : the sequential kernel;
  - MTMathKernel (CLIParser.h region) : the data-parallel kernel;
  - MathUtils.h : the three metric functions.
Tables are lists of rows; machine size_t arithmetic is modelled by Nat with
division by zero mapped to an explicit Option failure where the C++ division
would be undefined.
-/

namespace DistCalc

/-- Embedding of MPIWrapper::toFlatMatrix: an empty table yields an empty
buffer, otherwise the rows are concatenated in row order (row-major). -/
def toFlatMatrix {α : Type} (table : List (List α)) : List α :=
  match table with
  | [] => []
  | r :: rs => (r :: rs).flatten

/-- The row-reconstruction loop shared by MPIWrapper::splitFlatMatrix,
receiveQuery and receiveDataSet: starting from the head of the flat buffer,
take rowCount consecutive blocks of rowLen elements each. -/
def chunkRows {α : Type} (flat : List α) (rowLen : Nat) : Nat → List (List α)
  | 0 => []
  | rowCount + 1 => flat.take rowLen :: chunkRows (flat.drop rowLen) rowLen rowCount

/-- Embedding of MPIWrapper::splitFlatMatrix: the row count is the buffer
length divided by rowSize with size_t division. The C++ source performs the
division unguarded, so rowSize = 0 divides by zero (undefined); like the
unguarded division in getBlockSize, that case is modelled as none. -/
def splitFlatMatrix {α : Type} (flatMatrix : List α) (rowSize : Nat) :
    Option (List (List α)) :=
  if rowSize = 0 then none
  else some (chunkRows flatMatrix rowSize (flatMatrix.length / rowSize))

/-- Embedding of MPIWrapper::getBlockSize. minPerProcessor = 1, maxThreads is
the ceiling division (length + 1 - 1) / 1, the available processor count
falls back to 2 when it is zero, and the pair (blockSize, numProcessor) is
returned. The C++ source divides length by numProcessor with no guard; a
zero divisor (undefined division in C++) is modelled as none. -/
def getBlockSize (length numOfProcessor : Nat) : Option (Nat × Nat) :=
  let minPerProcessor := 1
  let maxThreads := (length + minPerProcessor - 1) / minPerProcessor
  let numProcessor := min (if numOfProcessor ≠ 0 then numOfProcessor else 2) maxThreads
  if numProcessor = 0 then none
  else some (length / numProcessor, numProcessor)

/-- Modelled from the spec (§4.3 partitioner contract), for comparison with
getBlockSize: effectiveWorkers is min(availableWorkers, totalRows) with 2
substituted when availableWorkers is zero, and blockSize is the integer
division totalRows / effectiveWorkers. -/
def specPlan (totalRows availableWorkers : Nat) : Nat × Nat :=
  let effectiveWorkers := min (if availableWorkers = 0 then 2 else availableWorkers) totalRows
  (totalRows / effectiveWorkers, effectiveWorkers)

lemma toFlatMatrix_eq_flatten {α : Type} (t : List (List α)) :
    toFlatMatrix t = t.flatten := by
  cases t <;> rfl

lemma chunkRows_flatten {α : Type} (c : Nat) :
    ∀ t : List (List α), (∀ r ∈ t, r.length = c) →
      chunkRows t.flatten c t.length = t := by
  intro t
  induction t with
  | nil => intro _; rfl
  | cons r rs ih =>
    intro h
    have hr : r.length = c := h r (List.mem_cons_self r rs)
    have hrs : ∀ x ∈ rs, x.length = c := fun x hx => h x (List.mem_cons_of_mem r hx)
    simp only [List.flatten_cons, List.length_cons, chunkRows]
    congr 1
    · rw [← hr, List.take_left]
    · rw [← hr, List.drop_left, hr, ih hrs]

lemma flatten_length_uniform {α : Type} (c : Nat) :
    ∀ t : List (List α), (∀ r ∈ t, r.length = c) →
      t.flatten.length = t.length * c := by
  intro t
  induction t with
  | nil => intro _; simp
  | cons r rs ih =>
    intro h
    have hr : r.length = c := h r (List.mem_cons_self r rs)
    have hrs : ∀ x ∈ rs, x.length = c := fun x hx => h x (List.mem_cons_of_mem r hx)
    simp [List.flatten_cons, ih hrs, hr, Nat.succ_mul, Nat.add_comm]

lemma splitFlatMatrix_flatten {α : Type} (c : Nat) (t : List (List α))
    (h : ∀ r ∈ t, r.length = c) (hc : 0 < c) :
    splitFlatMatrix t.flatten c = some t := by
  unfold splitFlatMatrix
  rw [if_neg (Nat.pos_iff_ne_zero.mp hc), flatten_length_uniform c t h,
    Nat.mul_div_cancel _ hc, chunkRows_flatten c t h]

/-- Claim C4 counterexample: a table of one empty row (R = 1, C = 0)
flattens to the empty buffer, and splitting that buffer with row length 0
divides the buffer length by zero and recovers no table at all — in
particular not the original table — so the round trip fails at C = 0. -/
theorem flatten_split_zero_width_fails :
    toFlatMatrix ([[]] : List (List Rat)) = [] ∧
    splitFlatMatrix (toFlatMatrix ([[]] : List (List Rat))) 0 = none ∧
    splitFlatMatrix (toFlatMatrix ([[]] : List (List Rat))) 0 ≠ some [[]] := by
  refine ⟨rfl, rfl, by decide⟩

/-- Claim C4 (amended): for a table of R rows, all of length C, the flat
buffer has length R * C in row-major order and is empty when R = 0 or
C = 0; the split recovers the table exactly for every R whenever C ≥ 1;
when C = 0 the split divides the buffer length by zero and recovers no
table. -/
theorem flatten_split_roundtrip {α : Type} (t : List (List α)) (c : Nat)
    (h : ∀ r ∈ t, r.length = c) :
    (toFlatMatrix t).length = t.length * c ∧
    (t = [] ∨ c = 0 → toFlatMatrix t = []) ∧
    (1 ≤ c → splitFlatMatrix (toFlatMatrix t) c = some t) ∧
    (c = 0 → splitFlatMatrix (toFlatMatrix t) c = none) := by
  refine ⟨?_, ?_, ?_, ?_⟩
  · rw [toFlatMatrix_eq_flatten, flatten_length_uniform c t h]
  · rintro (rfl | rfl)
    · rfl
    · rw [toFlatMatrix_eq_flatten]
      have : t.flatten.length = 0 := by
        rw [flatten_length_uniform 0 t h]; simp
      exact List.eq_nil_of_length_eq_zero this
  · intro hc
    rw [toFlatMatrix_eq_flatten, splitFlatMatrix_flatten c t h hc]
  · rintro rfl
    rfl

theorem flatten_split_roundtrip_witness :
    (toFlatMatrix ([[1, 2], [3, 4]] : List (List Rat))).length = 2 * 2 ∧
    (([[1, 2], [3, 4]] : List (List Rat)) = [] ∨ (2 : Nat) = 0 →
      toFlatMatrix ([[1, 2], [3, 4]] : List (List Rat)) = []) ∧
    ((1 : Nat) ≤ 2 →
      splitFlatMatrix (toFlatMatrix ([[1, 2], [3, 4]] : List (List Rat))) 2 =
        some [[1, 2], [3, 4]]) ∧
    ((2 : Nat) = 0 →
      splitFlatMatrix (toFlatMatrix ([[1, 2], [3, 4]] : List (List Rat))) 2 =
        none) :=
  flatten_split_roundtrip [[1, 2], [3, 4]] 2 (by decide)

lemma getBlockSize_eq (totalRows numProc : Nat) (h : 1 ≤ totalRows) :
    getBlockSize totalRows numProc = some (specPlan totalRows numProc) := by
  unfold getBlockSize specPlan
  have hmax : (totalRows + 1 - 1) / 1 = totalRows := by simp
  have hfall : (if numProc ≠ 0 then numProc else 2) = (if numProc = 0 then 2 else numProc) := by
    by_cases hn : numProc = 0 <;> simp [hn]
  have hpos : 0 < min (if numProc = 0 then 2 else numProc) totalRows := by
    apply lt_min
    · by_cases hn : numProc = 0
      · simp [hn]
      · simp [hn]
        omega
    · exact h
  simp only [hmax, hfall]
  rw [if_neg (Nat.pos_iff_ne_zero.mp hpos)]

/-- Claim C5: for totalRows ≥ 1 (the partitioner is only invoked on a
non-empty query; totalRows = 0 makes the division undefined, see C10),
getBlockSize returns effectiveWorkers = min(availableWorkers, totalRows)
with 2 substituted when availableWorkers = 0, and blockSize =
totalRows / effectiveWorkers by integer division, as specPlan states. -/
theorem getBlockSize_plan_formula (totalRows availableWorkers : Nat)
    (h : 1 ≤ totalRows) :
    getBlockSize totalRows availableWorkers =
      some (totalRows / min (if availableWorkers = 0 then 2 else availableWorkers) totalRows,
            min (if availableWorkers = 0 then 2 else availableWorkers) totalRows) :=
  getBlockSize_eq totalRows availableWorkers h

theorem getBlockSize_plan_formula_witness :
    getBlockSize 7 3 = some (7 / min 3 7, min 3 7) :=
  getBlockSize_plan_formula 7 3 (by decide)

lemma getBlockSize_some_pos (totalRows numProc : Nat) (h : 1 ≤ totalRows) :
    ∃ bs k, getBlockSize totalRows numProc = some (bs, k) ∧ 1 ≤ k := by
  refine ⟨totalRows / min (if numProc = 0 then 2 else numProc) totalRows,
    min (if numProc = 0 then 2 else numProc) totalRows,
    getBlockSize_eq totalRows numProc h, ?_⟩
  apply le_min
  · by_cases hn : numProc = 0
    · simp [hn]
    · simp [hn]
      omega
  · exact h

/-- Claim C10: for every totalRows ≥ 1 and every available worker count the
effective worker count dividing totalRows is at least 1, so the division in
getBlockSize is well-defined; and at totalRows = 0 the computed effective
worker count is 0 and the unguarded division has no defined result, so
totalRows ≥ 1 is a necessary precondition. -/
theorem partition_divisor_positive (totalRows numProc : Nat) (h : 1 ≤ totalRows) :
    (∃ bs k, getBlockSize totalRows numProc = some (bs, k) ∧ 1 ≤ k) ∧
    getBlockSize 0 numProc = none := by
  constructor
  · exact getBlockSize_some_pos totalRows numProc h
  · unfold getBlockSize
    simp

theorem partition_divisor_positive_witness :
    (∃ bs k, getBlockSize 4 0 = some (bs, k) ∧ 1 ≤ k) ∧ getBlockSize 0 0 = none :=
  partition_divisor_positive 4 0 (by decide)

lemma slices_cover {α : Type} (bs : Nat) :
    ∀ (m : Nat) (l : List α),
      ((List.range m).flatMap (fun w => (l.drop (w * bs)).take bs)) ++ l.drop (m * bs) = l := by
  intro m
  induction m with
  | zero => intro l; simp
  | succ n ih =>
    intro l
    rw [List.range_succ, List.flatMap_append, List.append_assoc]
    have hdrop : l.drop ((n + 1) * bs) = (l.drop (n * bs)).drop bs := by
      rw [List.drop_drop, Nat.succ_mul, Nat.add_comm]
    have hinner : (l.drop (n * bs)).take bs ++ l.drop ((n + 1) * bs) = l.drop (n * bs) := by
      rw [hdrop, List.take_append_drop]
    simp only [List.flatMap_cons, List.flatMap_nil, List.append_nil]
    rw [hinner, ih l]

/-- Claim C3: for totalRows ≥ 1 and any worker count, the plan (bs, k) of
getBlockSize satisfies bs·(k−1) + coordinatorRemainder = totalRows with
coordinatorRemainder = totalRows − bs·(k−1) ≥ bs, and the worker row ranges
[w·bs, (w+1)·bs) for w = 0..k−2 taken in worker-index order, followed by the
coordinator remainder range, cover [0, totalRows) contiguously with no gaps
or overlaps (their concatenation is exactly the index list). -/
theorem partition_invariant (totalRows numProc : Nat) (h : 1 ≤ totalRows) :
    ∃ bs k, getBlockSize totalRows numProc = some (bs, k) ∧ 1 ≤ k ∧
      bs * (k - 1) + (totalRows - bs * (k - 1)) = totalRows ∧
      bs ≤ totalRows - bs * (k - 1) ∧
      ((List.range (k - 1)).flatMap
          (fun w => ((List.range totalRows).drop (w * bs)).take bs)) ++
        (List.range totalRows).drop ((k - 1) * bs) = List.range totalRows := by
  obtain ⟨bs, k, hsome, hk⟩ := getBlockSize_some_pos totalRows numProc h
  refine ⟨bs, k, hsome, hk, ?_, ?_, slices_cover bs (k - 1) (List.range totalRows)⟩
  · have hbs : bs = totalRows / k := by
      rw [getBlockSize_eq totalRows numProc h] at hsome
      unfold specPlan at hsome
      simp only [Option.some_inj, Prod.mk.injEq] at hsome
      obtain ⟨h1, h2⟩ := hsome
      rw [← h1, h2]
    have hkbs : bs * k ≤ totalRows := by
      rw [hbs, Nat.mul_comm]
      exact Nat.mul_div_le totalRows k
    have : bs * (k - 1) ≤ totalRows :=
      le_trans (Nat.mul_le_mul_left bs (Nat.sub_le k 1)) hkbs
    omega
  · have hbs : bs = totalRows / k := by
      rw [getBlockSize_eq totalRows numProc h] at hsome
      unfold specPlan at hsome
      simp only [Option.some_inj, Prod.mk.injEq] at hsome
      obtain ⟨h1, h2⟩ := hsome
      rw [← h1, h2]
    have hkbs : bs * k ≤ totalRows := by
      rw [hbs, Nat.mul_comm]
      exact Nat.mul_div_le totalRows k
    have hexp : bs * (k - 1) + bs = bs * k := by
      have : k - 1 + 1 = k := Nat.succ_pred_eq_of_pos hk
      calc bs * (k - 1) + bs = bs * (k - 1 + 1) := by ring
        _ = bs * k := by rw [this]
    omega

theorem partition_invariant_witness :
    ∃ bs k, getBlockSize 5 2 = some (bs, k) ∧ 1 ≤ k ∧
      bs * (k - 1) + (5 - bs * (k - 1)) = 5 ∧
      bs ≤ 5 - bs * (k - 1) ∧
      ((List.range (k - 1)).flatMap
          (fun w => ((List.range 5).drop (w * bs)).take bs)) ++
        (List.range 5).drop ((k - 1) * bs) = List.range 5 :=
  partition_invariant 5 2 (by decide)

/-- Error taxonomy hit by the kernels: the ASSERT_ERROR on unequal vector
sizes in MathKernel / MTMathKernel / MathUtils. -/
inductive KernelError : Type
  | dimensionMismatch
  deriving DecidableEq

/-- The distance matrix produced when no dimension mismatch occurs: row i is
the list of distances from query vector i to every dataset vector, in
dataset order (the row-major result both kernels fill in). -/
def computeRows {α β : Type} (dist : List α → List α → β)
    (query dataSet : List (List α)) : List (List β) :=
  query.map fun qv => dataSet.map fun dv => dist qv dv

/-- One row of MathKernel::computeDistance: the inner dataset loop, checking
the dimension assertion before each distance call and aborting at the first
mismatching dataset vector. -/
def computeRowSeq {α β : Type} (dist : List α → List α → β) (qv : List α) :
    List (List α) → Except KernelError (List β)
  | [] => .ok []
  | dv :: ds =>
    if qv.length = dv.length then
      match computeRowSeq dist qv ds with
      | .error e => .error e
      | .ok row => .ok (dist qv dv :: row)
    else .error .dimensionMismatch

/-- Embedding of the sequential MathKernel::computeDistance loop nest:
row-major iteration, aborting the whole computation at the first dimension
mismatch encountered. -/
def seqCompute {α β : Type} (dist : List α → List α → β) :
    List (List α) → List (List α) → Except KernelError (List (List β))
  | [], _ => .ok []
  | qv :: qs, d =>
    match computeRowSeq dist qv d with
    | .error e => .error e
    | .ok row =>
      match seqCompute dist qs d with
      | .error e => .error e
      | .ok rows => .ok (row :: rows)

/-- One unit of MTMathKernel::computeDistance (handleQueryVector): computes
the row for one query vector, reporting failure (the dimensionalError flag)
when some dataset vector has a different length. -/
def mtRow {α β : Type} (dist : List α → List α → β) (qv : List α) :
    List (List α) → Option (List β)
  | [] => some []
  | dv :: ds =>
    if qv.length = dv.length then
      match mtRow dist qv ds with
      | none => none
      | some row => some (dist qv dv :: row)
    else none

/-- The result of running one mtRow unit per query vector: rows are
write-disjoint slots of the output matrix, collected in query order; the
whole run fails when any unit raised the flag. -/
def mtRows {α β : Type} (dist : List α → List α → β) :
    List (List α) → List (List α) → Option (List (List β))
  | [], _ => some []
  | qv :: qs, d =>
    match mtRow dist qv d, mtRows dist qs d with
    | some row, some rows => some (row :: rows)
    | _, _ => none

/-- Embedding of MTMathKernel::computeDistance: every query row is computed
independently (rows are write-disjoint); if any unit raised the
dimensionalError flag the final ASSERT_ERROR fails and no matrix is
returned, otherwise the rows are assembled in query order. -/
def mtCompute {α β : Type} (dist : List α → List α → β)
    (query dataSet : List (List α)) : Except KernelError (List (List β)) :=
  match mtRows dist query dataSet with
  | none => .error .dimensionMismatch
  | some rows => .ok rows

/-- The distance metrics of IMathKernel.h. -/
inductive EDistanceMetric : Type
  | L1
  | L2
  | Hamming

/-- Embedding of math::util::computeL1Distance over real scalars: sum of
absolute elementwise differences. -/
noncomputable def computeL1Distance (first second : List ℝ) : ℝ :=
  ((first.zip second).map fun p => |p.1 - p.2|).sum

/-- Embedding of math::util::computeL2Distance over real scalars: square
root of the sum of squared elementwise differences (the C++ long double
accumulator and the final cast are exact over this idealized scalar; the
narrow-int overflow in the squaring step is treated separately below). -/
noncomputable def computeL2Distance (first second : List ℝ) : ℝ :=
  Real.sqrt (((first.zip second).map fun p => (p.1 - p.2) * (p.1 - p.2)).sum)

/-- Embedding of math::util::computeHammingDistance over real scalars
(floating-point branch): count of positions whose absolute difference
exceeds the fixed epsilon 0.000001. -/
noncomputable def computeHammingDistance (first second : List ℝ) : ℝ :=
  (((first.zip second).filter fun p =>
      decide ((1 : ℝ) / 1000000 < |p.1 - p.2|)).length : ℝ)

/-- The metric-to-function dispatch table shared by both kernels. -/
noncomputable def metricFn : EDistanceMetric → (List ℝ → List ℝ → ℝ)
  | .L1 => computeL1Distance
  | .L2 => computeL2Distance
  | .Hamming => computeHammingDistance

namespace MathKernel

/-- Embedding of MathKernel::computeDistance: dispatch on the metric, then
the sequential generic loop. -/
noncomputable def computeDistance (query dataSet : List (List ℝ)) :
    EDistanceMetric → Except KernelError (List (List ℝ))
  | .L1 => seqCompute computeL1Distance query dataSet
  | .L2 => seqCompute computeL2Distance query dataSet
  | .Hamming => seqCompute computeHammingDistance query dataSet

end MathKernel

namespace MTMathKernel

/-- Embedding of MTMathKernel::computeDistance: dispatch on the metric, then
the data-parallel generic loop. -/
noncomputable def computeDistance (query dataSet : List (List ℝ)) :
    EDistanceMetric → Except KernelError (List (List ℝ))
  | .L1 => mtCompute computeL1Distance query dataSet
  | .L2 => mtCompute computeL2Distance query dataSet
  | .Hamming => mtCompute computeHammingDistance query dataSet

end MTMathKernel

lemma computeRowSeq_ok {α β : Type} (dist : List α → List α → β) (qv : List α)
    (d : List (List α)) (h : ∀ dv ∈ d, qv.length = dv.length) :
    computeRowSeq dist qv d = .ok (d.map fun dv => dist qv dv) := by
  induction d with
  | nil => rfl
  | cons dv ds ih =>
    have hdv : qv.length = dv.length := h dv (List.mem_cons_self dv ds)
    have hds : ∀ x ∈ ds, qv.length = x.length := fun x hx => h x (List.mem_cons_of_mem dv hx)
    simp [computeRowSeq, hdv, ih hds]

lemma seqCompute_ok {α β : Type} (dist : List α → List α → β)
    (q d : List (List α)) (h : ∀ qv ∈ q, ∀ dv ∈ d, qv.length = dv.length) :
    seqCompute dist q d = .ok (computeRows dist q d) := by
  induction q with
  | nil => rfl
  | cons qv qs ih =>
    have hqv : ∀ dv ∈ d, qv.length = dv.length := h qv (List.mem_cons_self qv qs)
    have hqs : ∀ x ∈ qs, ∀ dv ∈ d, x.length = dv.length :=
      fun x hx => h x (List.mem_cons_of_mem qv hx)
    simp [seqCompute, computeRowSeq_ok dist qv d hqv, ih hqs, computeRows]

lemma mtRow_ok {α β : Type} (dist : List α → List α → β) (qv : List α)
    (d : List (List α)) (h : ∀ dv ∈ d, qv.length = dv.length) :
    mtRow dist qv d = some (d.map fun dv => dist qv dv) := by
  induction d with
  | nil => rfl
  | cons dv ds ih =>
    have hdv : qv.length = dv.length := h dv (List.mem_cons_self dv ds)
    have hds : ∀ x ∈ ds, qv.length = x.length := fun x hx => h x (List.mem_cons_of_mem dv hx)
    simp [mtRow, hdv, ih hds]

lemma mtCompute_ok {α β : Type} (dist : List α → List α → β)
    (q d : List (List α)) (h : ∀ qv ∈ q, ∀ dv ∈ d, qv.length = dv.length) :
    mtCompute dist q d = .ok (computeRows dist q d) := by
  unfold mtCompute
  have : mtRows dist q d = some (q.map fun qv => d.map fun dv => dist qv dv) := by
    induction q with
    | nil => rfl
    | cons qv qs ih =>
      have hqv : ∀ dv ∈ d, qv.length = dv.length := h qv (List.mem_cons_self qv qs)
      have hqs : ∀ x ∈ qs, ∀ dv ∈ d, x.length = dv.length :=
        fun x hx => h x (List.mem_cons_of_mem qv hx)
      simp [mtRows, mtRow_ok dist qv d hqv, ih hqs]
  rw [this]
  rfl

lemma mathKernel_ok (m : EDistanceMetric) (q d : List (List ℝ))
    (h : ∀ qv ∈ q, ∀ dv ∈ d, qv.length = dv.length) :
    MathKernel.computeDistance q d m = .ok (computeRows (metricFn m) q d) := by
  cases m <;> exact seqCompute_ok _ q d h

lemma mtMathKernel_ok (m : EDistanceMetric) (q d : List (List ℝ))
    (h : ∀ qv ∈ q, ∀ dv ∈ d, qv.length = dv.length) :
    MTMathKernel.computeDistance q d m = .ok (computeRows (metricFn m) q d) := by
  cases m <;> exact mtCompute_ok _ q d h

/-- Claim C2: for every metric and every query/dataset pair whose vectors
all share one dimension, the sequential kernel and the parallel kernel
return the identical distance matrix (both succeed with the same
row-major matrix of pairwise distances). -/
theorem seq_mt_kernels_identical (m : EDistanceMetric)
    (query dataSet : List (List ℝ)) (dim : Nat)
    (hq : ∀ v ∈ query, v.length = dim) (hd : ∀ v ∈ dataSet, v.length = dim) :
    MathKernel.computeDistance query dataSet m =
        .ok (computeRows (metricFn m) query dataSet) ∧
    MTMathKernel.computeDistance query dataSet m =
        .ok (computeRows (metricFn m) query dataSet) := by
  have h : ∀ qv ∈ query, ∀ dv ∈ dataSet, qv.length = dv.length := by
    intro qv hqv dv hdv
    rw [hq qv hqv, hd dv hdv]
  exact ⟨mathKernel_ok m query dataSet h, mtMathKernel_ok m query dataSet h⟩

theorem seq_mt_kernels_identical_witness :
    MathKernel.computeDistance [[1, 2]] [[3, 4], [5, 6]] .L2 =
        .ok (computeRows (metricFn .L2) [[1, 2]] [[3, 4], [5, 6]]) ∧
    MTMathKernel.computeDistance [[1, 2]] [[3, 4], [5, 6]] .L2 =
        .ok (computeRows (metricFn .L2) [[1, 2]] [[3, 4], [5, 6]]) :=
  seq_mt_kernels_identical .L2 [[1, 2]] [[3, 4], [5, 6]] 2
    (by decide) (by decide)

lemma computeRowSeq_error {α β : Type} (dist : List α → List α → β) (qv : List α)
    (d : List (List α)) (h : ∃ dv ∈ d, qv.length ≠ dv.length) :
    computeRowSeq dist qv d = .error .dimensionMismatch := by
  induction d with
  | nil => obtain ⟨dv, hdv, -⟩ := h; exact absurd hdv (List.not_mem_nil dv)
  | cons dv ds ih =>
    by_cases hdv : qv.length = dv.length
    · have hds : ∃ x ∈ ds, qv.length ≠ x.length := by
        obtain ⟨x, hx, hne⟩ := h
        rcases List.mem_cons.mp hx with rfl | hx'
        · exact absurd hdv hne
        · exact ⟨x, hx', hne⟩
      simp [computeRowSeq, hdv, ih hds]
    · simp [computeRowSeq, hdv]

lemma seqCompute_error {α β : Type} (dist : List α → List α → β)
    (q d : List (List α)) (h : ∃ qv ∈ q, ∃ dv ∈ d, qv.length ≠ dv.length) :
    seqCompute dist q d = .error .dimensionMismatch := by
  induction q with
  | nil => obtain ⟨qv, hqv, -⟩ := h; exact absurd hqv (List.not_mem_nil qv)
  | cons qv qs ih =>
    by_cases hrow : ∃ dv ∈ d, qv.length ≠ dv.length
    · simp [seqCompute, computeRowSeq_error dist qv d hrow]
    · push_neg at hrow
      have hqs : ∃ x ∈ qs, ∃ dv ∈ d, x.length ≠ dv.length := by
        obtain ⟨x, hx, dv, hdv, hne⟩ := h
        rcases List.mem_cons.mp hx with rfl | hx'
        · exact absurd (hrow dv hdv) hne
        · exact ⟨x, hx', dv, hdv, hne⟩
      simp [seqCompute, computeRowSeq_ok dist qv d hrow, ih hqs]

lemma mtRow_none {α β : Type} (dist : List α → List α → β) (qv : List α)
    (d : List (List α)) (h : ∃ dv ∈ d, qv.length ≠ dv.length) :
    mtRow dist qv d = none := by
  induction d with
  | nil => obtain ⟨dv, hdv, -⟩ := h; exact absurd hdv (List.not_mem_nil dv)
  | cons dv ds ih =>
    by_cases hdv : qv.length = dv.length
    · have hds : ∃ x ∈ ds, qv.length ≠ x.length := by
        obtain ⟨x, hx, hne⟩ := h
        rcases List.mem_cons.mp hx with rfl | hx'
        · exact absurd hdv hne
        · exact ⟨x, hx', hne⟩
      simp [mtRow, hdv, ih hds]
    · simp [mtRow, hdv]

lemma mtCompute_error {α β : Type} (dist : List α → List α → β)
    (q d : List (List α)) (h : ∃ qv ∈ q, ∃ dv ∈ d, qv.length ≠ dv.length) :
    mtCompute dist q d = .error .dimensionMismatch := by
  unfold mtCompute
  have : mtRows dist q d = none := by
    induction q with
    | nil => obtain ⟨qv, hqv, -⟩ := h; exact absurd hqv (List.not_mem_nil qv)
    | cons qv qs ih =>
      by_cases hrow : ∃ dv ∈ d, qv.length ≠ dv.length
      · simp [mtRows, mtRow_none dist qv d hrow]
      · push_neg at hrow
        have hqs : ∃ x ∈ qs, ∃ dv ∈ d, x.length ≠ dv.length := by
          obtain ⟨x, hx, dv, hdv, hne⟩ := h
          rcases List.mem_cons.mp hx with rfl | hx'
          · exact absurd (hrow dv hdv) hne
          · exact ⟨x, hx', dv, hdv, hne⟩
        simp [mtRows, mtRow_ok dist qv d hrow, ih hqs]
  rw [this]

/-- Claim C7: whenever some query vector and some dataset vector have
different lengths, both the sequential and the parallel kernel fail with
the dimension-mismatch condition and return no matrix; the sequential
variant scans row-major and aborts at the first mismatch (computeRowSeq
and seqCompute return the error as soon as the first mismatching pair in
row-major order is checked, never reaching later pairs). -/
theorem kernels_dimension_mismatch_error (m : EDistanceMetric)
    (query dataSet : List (List ℝ))
    (h : ∃ qv ∈ query, ∃ dv ∈ dataSet, qv.length ≠ dv.length) :
    MathKernel.computeDistance query dataSet m = .error .dimensionMismatch ∧
    MTMathKernel.computeDistance query dataSet m = .error .dimensionMismatch := by
  cases m <;>
    exact ⟨seqCompute_error _ query dataSet h, mtCompute_error _ query dataSet h⟩

theorem kernels_dimension_mismatch_error_witness :
    MathKernel.computeDistance [[0, 0, 0]] [[0, 0, 0, 0]] .L1 =
        .error .dimensionMismatch ∧
    MTMathKernel.computeDistance [[0, 0, 0]] [[0, 0, 0, 0]] .L1 =
        .error .dimensionMismatch :=
  kernels_dimension_mismatch_error .L1 [[0, 0, 0]] [[0, 0, 0, 0]] (by decide)

lemma metricFn_self (m : EDistanceMetric) (v : List ℝ) : metricFn m v v = 0 := by
  cases m
  · show computeL1Distance v v = 0
    unfold computeL1Distance
    induction v with
    | nil => simp
    | cons x xs ih => simpa using ih
  · show computeL2Distance v v = 0
    unfold computeL2Distance
    have : (((v.zip v).map fun p => (p.1 - p.2) * (p.1 - p.2)).sum : ℝ) = 0 := by
      induction v with
      | nil => simp
      | cons x xs ih => simpa using ih
    rw [this, Real.sqrt_zero]
  · show computeHammingDistance v v = 0
    unfold computeHammingDistance
    have : ((v.zip v).filter fun p =>
        decide ((1 : ℝ) / 1000000 < |p.1 - p.2|)) = [] := by
      induction v with
      | nil => simp
      | cons x xs ih =>
        simp only [List.zip_cons_cons, List.filter_cons]
        have hx : ¬ ((1 : ℝ) / 1000000 < |x - x|) := by
          rw [sub_self, abs_zero]
          norm_num
        rw [if_neg (by simp [hx])]
        exact ih
    rw [this]
    simp

lemma zip_map_comm {α β : Type} (f : α × α → β) (hf : ∀ a b, f (a, b) = f (b, a)) :
    ∀ (a b : List α), (a.zip b).map f = (b.zip a).map f := by
  intro a
  induction a with
  | nil => intro b; cases b <;> simp
  | cons x xs ih =>
    intro b
    cases b with
    | nil => simp
    | cons y ys => simp [hf x y, ih ys]

lemma zip_filter_comm {α : Type} (p : α × α → Bool)
    (hp : ∀ a b, p (a, b) = p (b, a)) :
    ∀ (a b : List α), ((a.zip b).filter p).length = ((b.zip a).filter p).length := by
  intro a
  induction a with
  | nil => intro b; cases b <;> simp
  | cons x xs ih =>
    intro b
    cases b with
    | nil => simp
    | cons y ys =>
      simp only [List.zip_cons_cons, List.filter_cons, hp x y]
      by_cases hc : p (y, x) = true
      · simp [hc, ih ys]
      · simp [hc, ih ys]

lemma metricFn_comm (m : EDistanceMetric) (a b : List ℝ) :
    metricFn m a b = metricFn m b a := by
  cases m
  · show computeL1Distance a b = computeL1Distance b a
    unfold computeL1Distance
    rw [zip_map_comm _ (fun x y => by simp [abs_sub_comm]) a b]
  · show computeL2Distance a b = computeL2Distance b a
    unfold computeL2Distance
    rw [zip_map_comm _ (fun x y => by ring) a b]
  · show computeHammingDistance a b = computeHammingDistance b a
    unfold computeHammingDistance
    rw [zip_filter_comm _ (fun x y => by simp [abs_sub_comm]) a b]

/-- Claim C8: for every metric and every vector set S of uniform dimension,
computeDistance(S, S, metric) succeeds, its diagonal entries are all zero
and the matrix is symmetric (entry (i, j) equals entry (j, i); out-of-range
positions read the shared default and hold trivially). -/
theorem self_distance_zero_diag_symmetric (m : EDistanceMetric)
    (S : List (List ℝ)) (dim : Nat) (h : ∀ v ∈ S, v.length = dim) :
    ∃ M, MathKernel.computeDistance S S m = .ok M ∧
      (∀ i, (M.getD i []).getD i 0 = 0) ∧
      (∀ i j, (M.getD i []).getD j 0 = (M.getD j []).getD i 0) := by
  have hlen : ∀ qv ∈ S, ∀ dv ∈ S, qv.length = dv.length := by
    intro qv hqv dv hdv
    rw [h qv hqv, h dv hdv]
  refine ⟨computeRows (metricFn m) S S, mathKernel_ok m S S hlen, ?_, ?_⟩
  · intro i
    rcases hSi : S[i]? with _ | v
    · simp [computeRows, List.getD_eq_getElem?_getD, List.getElem?_map, hSi]
    · simp [computeRows, List.getD_eq_getElem?_getD, List.getElem?_map, hSi,
        metricFn_self]
  · intro i j
    rcases hSi : S[i]? with _ | v <;> rcases hSj : S[j]? with _ | w <;>
      simp [computeRows, List.getD_eq_getElem?_getD, List.getElem?_map, hSi, hSj,
        metricFn_comm]

theorem self_distance_zero_diag_symmetric_witness :
    ∃ M, MathKernel.computeDistance [[1, 2], [3, 4]] [[1, 2], [3, 4]]
        .Hamming = .ok M ∧
      (∀ i, (M.getD i []).getD i 0 = 0) ∧
      (∀ i j, (M.getD i []).getD j 0 = (M.getD j []).getD i 0) :=
  self_distance_zero_diag_symmetric .Hamming [[1, 2], [3, 4]] 2 (by decide)

/-- Two's-complement wrap of a mathematical integer into the 32-bit int
range, modelling C++ int arithmetic overflow behaviour on the common
ILP32/LP64 targets (signed overflow is undefined in C++; the wrap shows a
concrete divergence from the exact value either way). -/
def wrapInt32 (z : Int) : Int :=
  (z + 2 ^ 31) % 2 ^ 32 - 2 ^ 31

/-- The accumulated sum computed by computeL2Distance for T = int: the
difference and its square are evaluated in 32-bit int arithmetic, and only
the already-squared value is cast to the (exact for this range) long double
accumulator. Mirrors the statement order in MathUtils.h lines 61-67. -/
def codeL2SumSqInt (first second : List Int) : Int :=
  ((first.zip second).map fun p =>
    wrapInt32 (wrapInt32 (p.1 - p.2) * wrapInt32 (p.1 - p.2))).sum

/-- The exact sum of squared elementwise differences that the spec requires
the wider-precision accumulation to reach. -/
def exactL2SumSq (first second : List Int) : Int :=
  ((first.zip second).map fun p => (p.1 - p.2) * (p.1 - p.2)).sum

/-- Claim C6 evaluation at the failing input: for the int vectors [46341]
and [0], the squaring in computeL2Distance happens in 32-bit int before the
cast to long double, so the accumulated value wraps to -2147479015 instead
of the exact 2147488281; the result can therefore not be the square root of
the exact sum of squared differences, refuting the overflow-free
accumulation for narrow scalar types. -/
theorem l2_int_accumulator_overflows :
    codeL2SumSqInt [46341] [0] = -2147479015 ∧
    exactL2SumSq [46341] [0] = 2147488281 ∧
    codeL2SumSqInt [46341] [0] ≠ exactL2SumSq [46341] [0] := by
  refine ⟨?_, ?_, ?_⟩ <;> decide

/-- The message-tag registry state of MPIWrapper: the name-to-tag map plus
the static uniqueVarID counter feeding first-time registrations. -/
structure Registry : Type where
  vars : List (String × Int)
  nextID : Int

/-- Registry errors: the ASSERT_ERROR raised by getVariableTag on a lookup
of a name that was never registered. -/
inductive RegistryError : Type
  | unregisteredChannel
  deriving DecidableEq

/-- Embedding of MPIWrapper::registerVariable: an already-known name keeps
its tag and leaves the state unchanged; a new name is bound to the current
uniqueVarID, which is then incremented. -/
def registerVariable (varName : String) (st : Registry) : Int × Registry :=
  match st.vars.lookup varName with
  | some id => (id, st)
  | none => (st.nextID, ⟨(varName, st.nextID) :: st.vars, st.nextID + 1⟩)

/-- Embedding of MPIWrapper::getVariableTag: returns the mapped tag, or the
UnregisteredChannel assertion failure when the name is absent. -/
def getVariableTag (name : String) (st : Registry) : Except RegistryError Int :=
  match st.vars.lookup name with
  | some id => .ok id
  | none => .error .unregisteredChannel

/-- A run of registerVariable calls in order, as registerParamsForSync and
later registrations perform them. -/
def applyRegs (names : List String) (st : Registry) : Registry :=
  names.foldl (fun s n => (registerVariable n s).2) st

/-- The registry at the start of one coordinator lifetime. -/
def emptyRegistry : Registry := ⟨[], 0⟩

lemma lookup_cons_self {β : Type} (k : String) (b : β) (es : List (String × β)) :
    ((k, b) :: es).lookup k = some b := by
  rw [List.lookup_cons]
  simp

lemma lookup_cons_ne {β : Type} (a k : String) (b : β) (es : List (String × β))
    (h : a ≠ k) : ((k, b) :: es).lookup a = es.lookup a := by
  rw [List.lookup_cons]
  rw [show (a == k) = false from beq_eq_false_iff_ne.mpr h]

lemma registerVariable_keeps (name other : String) (id : Int) (st : Registry)
    (h : st.vars.lookup name = some id) :
    (registerVariable other st).2.vars.lookup name = some id := by
  unfold registerVariable
  rcases hl : st.vars.lookup other with _ | v
  · have hne : name ≠ other := by
      intro he
      subst he
      rw [h] at hl
      exact absurd hl (by simp)
    simpa [lookup_cons_ne name other _ _ hne] using h
  · simpa using h

lemma applyRegs_keeps (names : List String) (name : String) (id : Int) :
    ∀ st : Registry, st.vars.lookup name = some id →
      (applyRegs names st).vars.lookup name = some id := by
  induction names with
  | nil => intro st h; exact h
  | cons n ns ih =>
    intro st h
    exact ih _ (registerVariable_keeps name n id st h)

lemma registerVariable_binds (name : String) (st : Registry) :
    (registerVariable name st).2.vars.lookup name =
      some (registerVariable name st).1 := by
  unfold registerVariable
  rcases hl : st.vars.lookup name with _ | v
  · simp [lookup_cons_self]
  · simpa using hl

lemma registerVariable_lookup_none (name n : String) (st : Registry) :
    ((registerVariable n st).2.vars.lookup name = none ↔
      st.vars.lookup name = none ∧ name ≠ n) := by
  unfold registerVariable
  rcases hl : st.vars.lookup n with _ | v
  · by_cases he : name = n
    · subst he
      simp [lookup_cons_self, hl]
    · simp [lookup_cons_ne name n _ _ he, he]
  · constructor
    · intro hnone
      refine ⟨by simpa using hnone, ?_⟩
      intro he
      subst he
      rw [show st.vars.lookup name = none by simpa using hnone] at hl
      exact absurd hl (by simp)
    · intro h
      simpa using h.1

lemma applyRegs_lookup_none (names : List String) (name : String) :
    ∀ st : Registry,
      ((applyRegs names st).vars.lookup name = none ↔
        st.vars.lookup name = none ∧ name ∉ names) := by
  induction names with
  | nil => intro st; simp [applyRegs]
  | cons n ns ih =>
    intro st
    show ((applyRegs ns (registerVariable n st).2).vars.lookup name = none ↔ _)
    rw [ih, registerVariable_lookup_none name n st]
    constructor
    · intro h
      exact ⟨h.1.1, by simp [h.1.2, h.2]⟩
    · intro h
      have h2 := h.2
      simp only [List.mem_cons] at h2
      push_neg at h2
      exact ⟨⟨h.1, h2.1⟩, h2.2⟩

/-- Claim C9: starting from an empty registry and any sequence of prior
registrations, registering a name assigns it a tag; every later
registration of the same name (after arbitrary further registrations)
returns the same tag and leaves it mapped, getVariableTag then returns the
assigned tag, and getVariableTag fails with UnregisteredChannel exactly
when the name was never registered. -/
theorem registry_stable_tags (pre post : List String) (name : String) :
    (getVariableTag name (applyRegs pre emptyRegistry) =
        .error .unregisteredChannel ↔ name ∉ pre) ∧
    (getVariableTag name
        (applyRegs post (registerVariable name (applyRegs pre emptyRegistry)).2) =
      .ok (registerVariable name (applyRegs pre emptyRegistry)).1) ∧
    ((registerVariable name
        (applyRegs post (registerVariable name (applyRegs pre emptyRegistry)).2)).1 =
      (registerVariable name (applyRegs pre emptyRegistry)).1) := by
  have hempty : (emptyRegistry.vars.lookup name) = none := rfl
  have hiff : ((applyRegs pre emptyRegistry).vars.lookup name = none ↔ name ∉ pre) := by
    rw [applyRegs_lookup_none pre name emptyRegistry]
    simp [hempty]
  have hbound := registerVariable_binds name (applyRegs pre emptyRegistry)
  have hkept : (applyRegs post
      (registerVariable name (applyRegs pre emptyRegistry)).2).vars.lookup name =
      some (registerVariable name (applyRegs pre emptyRegistry)).1 :=
    applyRegs_keeps post name _ _ hbound
  refine ⟨?_, ?_, ?_⟩
  · unfold getVariableTag
    rcases hl : (applyRegs pre emptyRegistry).vars.lookup name with _ | v
    · simp [hiff.mp hl]
    · have hmem : name ∈ pre := by
        by_contra hno
        rw [hiff.mpr hno] at hl
        exact absurd hl (by simp)
      constructor
      · intro hcon
        exact absurd hcon (by simp)
      · intro hno
        exact absurd hmem hno
  · unfold getVariableTag
    rw [hkept]
  · conv_lhs => rw [registerVariable]
    rw [hkept]

/-- One iteration sequence of the receiveDistanceMatrix loop over the given
worker ids, in order: block on the receive of that worker's flat partial
(none models a worker that never sends, stalling the coordinator forever),
split it into rows of rowSize, and append the rows; none propagates because
a stalled receive never lets the loop finish. -/
def receiveLoop {α : Type} (workerPartial : Nat → Option (List α)) (rowSize : Nat) :
    List Nat → Option (List (List α))
  | [] => some []
  | p :: ps =>
    match workerPartial p with
    | none => none
    | some flat =>
      match splitFlatMatrix flat rowSize with
      | none => none
      | some matrix =>
        match receiveLoop workerPartial rowSize ps with
        | none => none
        | some rest => some (matrix ++ rest)

/-- The gather phase for a fixed plan (bs, k) and world size numProc,
composed exactly as the MPI protocol runs it: distributeQuery sends worker
pid (1 ≤ pid ≤ k−1) the flattened rows [(pid−1)·bs, pid·bs) and keeps the
remaining rows as the coordinator slice; a worker with pid < k rebuilds its
query block and the full dataset from the flat buffers (receiveQuery /
receiveDataSet loops), computes its partial matrix and flattens it
(sendDistanceMatrix), while a worker with pid ≥ k is never served and never
sends; receiveDistanceMatrix then loops pid = 1..numOfProcessor()−1 — the
world size, not the plan's k — receiving bs·dataSetSize elements per worker
in ascending pid order, splitting each buffer into rows of dataset length
and appending them in that order, and appends the coordinator slice last. -/
def gatherPlan {α : Type} (dist : List α → List α → α)
    (query dataSet : List (List α)) (numProc bs k : Nat) : Option (List (List α)) :=
  let vectorSize := (query.headD []).length
  let dataSetSize := dataSet.length
  let workerQuery := fun pid : Nat =>
    chunkRows (toFlatMatrix ((query.drop ((pid - 1) * bs)).take bs)) vectorSize bs
  let workerDataSet := chunkRows (toFlatMatrix dataSet) vectorSize dataSetSize
  let workerFlatDist := fun pid : Nat =>
    (toFlatMatrix (computeRows dist (workerQuery pid) workerDataSet)).take
      (bs * dataSetSize)
  let workerPartial := fun pid : Nat =>
    if pid < k then some (workerFlatDist pid) else none
  let selfDistanceMatrix := computeRows dist (query.drop ((k - 1) * bs)) dataSet
  (receiveLoop workerPartial dataSetSize
      ((List.range (numProc - 1)).map fun w => w + 1)).map
    fun gathered => gathered ++ selfDistanceMatrix

/-- The full partition-compute-gather run at the coordinator: plan with
getBlockSize, then distribute, compute and gather; none when the plan
itself is undefined or when the gather loop blocks forever on a worker
that was never given a slice. -/
def runPipeline {α : Type} (dist : List α → List α → α)
    (query dataSet : List (List α)) (numProc : Nat) : Option (List (List α)) :=
  (getBlockSize query.length numProc).bind fun p =>
    gatherPlan dist query dataSet numProc p.1 p.2

lemma computeRows_append {α β : Type} (dist : List α → List α → β)
    (q1 q2 d : List (List α)) :
    computeRows dist (q1 ++ q2) d = computeRows dist q1 d ++ computeRows dist q2 d := by
  simp [computeRows]

lemma computeRows_flatMap {α β : Type} (dist : List α → List α → β)
    (d : List (List α)) (g : Nat → List (List α)) (r : List Nat) :
    (r.flatMap fun w => computeRows dist (g w) d) = computeRows dist (r.flatMap g) d := by
  induction r with
  | nil => simp [computeRows]
  | cons w ws ih => simp [List.flatMap_cons, computeRows_append, ih]

lemma computeRows_row_length {α β : Type} (dist : List α → List α → β)
    (q d : List (List α)) : ∀ r ∈ computeRows dist q d, r.length = d.length := by
  intro r hr
  obtain ⟨qv, -, rfl⟩ := List.mem_map.mp hr
  simp

lemma computeRows_length {α β : Type} (dist : List α → List α → β)
    (q d : List (List α)) : (computeRows dist q d).length = q.length := by
  simp [computeRows]

lemma receiveLoop_ok {α : Type} (workerPartial : Nat → Option (List α))
    (rowSize : Nat) (flatOf : Nat → List α) (matOf : Nat → List (List α)) :
    ∀ pids : List Nat,
      (∀ p ∈ pids, workerPartial p = some (flatOf p)) →
      (∀ p ∈ pids, splitFlatMatrix (flatOf p) rowSize = some (matOf p)) →
      receiveLoop workerPartial rowSize pids = some (pids.flatMap matOf) := by
  intro pids
  induction pids with
  | nil => intro _ _; rfl
  | cons p ps ih =>
    intro h1 h2
    have hp1 := h1 p (List.mem_cons_self p ps)
    have hp2 := h2 p (List.mem_cons_self p ps)
    have hps := ih (fun x hx => h1 x (List.mem_cons_of_mem p hx))
      (fun x hx => h2 x (List.mem_cons_of_mem p hx))
    simp [receiveLoop, hp1, hp2, hps]

lemma receiveLoop_stalls {α : Type} (workerPartial : Nat → Option (List α))
    (rowSize : Nat) :
    ∀ pids : List Nat, (∃ p ∈ pids, workerPartial p = none) →
      receiveLoop workerPartial rowSize pids = none := by
  intro pids
  induction pids with
  | nil =>
    intro h
    obtain ⟨p, hp, -⟩ := h
    exact absurd hp (List.not_mem_nil p)
  | cons p ps ih =>
    intro h
    rcases hp : workerPartial p with _ | flat
    · simp [receiveLoop, hp]
    · have hps : ∃ x ∈ ps, workerPartial x = none := by
        obtain ⟨x, hx, hnone⟩ := h
        rcases List.mem_cons.mp hx with rfl | hx'
        · rw [hp] at hnone
          exact absurd hnone (by simp)
        · exact ⟨x, hx', hnone⟩
      rcases hsplit : splitFlatMatrix flat rowSize with _ | matrix
      · simp [receiveLoop, hp, hsplit]
      · simp [receiveLoop, hp, hsplit, ih hps]

/-- Claim C1 counterexample: one query row on a world of two processes.
The plan gives effectiveWorkers k = min(2, 1) = 1, so distributeQuery
serves no worker at all, but receiveDistanceMatrix still loops over
pid = 1..numOfProcessor()−1 = 1 and blocks forever on worker 1, which was
never given a slice; no matrix is assembled, contradicting the claim that
the gather receives exactly from workers 1..k−1 and assembles the full
matrix for every worker count. -/
theorem gather_worldsize_mismatch_fails :
    runPipeline (fun _ _ => (0 : Rat)) [[1]] [[1]] 2 = none ∧
    runPipeline (fun _ _ => (0 : Rat)) [[1]] [[1]] 2 ≠
      some (computeRows (fun _ _ => (0 : Rat)) [[1]] [[1]]) := by
  refine ⟨rfl, by decide⟩

/-- Claim C1 (amended): for every query set and dataset of one common
vector dimension (both non-empty, as the protocol asserts) and every world
size numProc ≥ 1: when numProc is at most the query row count, the
effective worker count k equals numProc, the gather loop over world-size−1
workers coincides with workers 1..k−1 taken in ascending order, and
splitting each flat partial into rows of dataset length, appending them in
that order and appending the coordinator's own slice last assembles
exactly the row-major distance matrix of the whole query set — row i is
the distance row of query vector i; when numProc exceeds the query row
count, the gather loop waits on a worker that was never given a slice and
no matrix is ever produced. -/
theorem gather_assembles_query_order {α : Type} (dist : List α → List α → α)
    (query dataSet : List (List α)) (numProc dim : Nat)
    (hq : query ≠ []) (hd : dataSet ≠ [])
    (hquery : ∀ v ∈ query, v.length = dim)
    (hdata : ∀ v ∈ dataSet, v.length = dim)
    (hnp : 1 ≤ numProc) :
    (numProc ≤ query.length →
      runPipeline dist query dataSet numProc = some (computeRows dist query dataSet)) ∧
    (query.length < numProc →
      runPipeline dist query dataSet numProc = none) := by
  have hlen : 1 ≤ query.length := List.length_pos.mpr hq
  have hds0 : 0 < dataSet.length := List.length_pos.mpr hd
  have hnp0 : ¬ numProc = 0 := by omega
  have hhead : (query.headD []).length = dim := by
    cases query with
    | nil => exact absurd rfl hq
    | cons qh qt => exact hquery qh (List.mem_cons_self qh qt)
  unfold runPipeline
  rw [getBlockSize_eq query.length numProc hlen]
  unfold specPlan
  rw [Option.some_bind]
  simp only [hnp0, if_false]
  set k := min numProc query.length with hkdef
  set bs := query.length / k with hbsdef
  have hkbs : k * bs ≤ query.length := by
    rw [hbsdef, Nat.mul_comm]
    exact Nat.div_mul_le_self query.length k
  constructor
  · intro hle
    have hk : k = numProc := min_eq_left hle
    have hsliceLen : ∀ w, w < k - 1 → ((query.drop (w * bs)).take bs).length = bs := by
      intro w hw
      rw [List.length_take, List.length_drop]
      have hw1 : (w + 1) * bs ≤ k * bs := Nat.mul_le_mul_right bs (by omega)
      have h2 : (w + 1) * bs ≤ query.length := le_trans hw1 hkbs
      rw [Nat.succ_mul] at h2
      omega
    have hsliceRows : ∀ w, ∀ v ∈ (query.drop (w * bs)).take bs, v.length = dim := by
      intro w v hv
      exact hquery v (List.mem_of_mem_drop (List.mem_of_mem_take hv))
    unfold gatherPlan
    simp only [hhead]
    have hwds : chunkRows (toFlatMatrix dataSet) dim dataSet.length = dataSet := by
      rw [toFlatMatrix_eq_flatten]
      exact chunkRows_flatten dim dataSet hdata
    rw [hwds]
    have hworker : ∀ pid ∈ (List.range (numProc - 1)).map fun w => w + 1,
        splitFlatMatrix
          ((toFlatMatrix (computeRows dist
              (chunkRows (toFlatMatrix ((query.drop ((pid - 1) * bs)).take bs)) dim bs)
              dataSet)).take (bs * dataSet.length))
          dataSet.length =
        some (computeRows dist ((query.drop ((pid - 1) * bs)).take bs) dataSet) := by
      intro pid hpid
      obtain ⟨w, hwmem, rfl⟩ := List.mem_map.mp hpid
      have hw : w < k - 1 := by
        have := List.mem_range.mp hwmem
        omega
      have hw1 : w + 1 - 1 = w := by omega
      rw [hw1]
      have hwq : chunkRows (toFlatMatrix ((query.drop (w * bs)).take bs)) dim bs =
          (query.drop (w * bs)).take bs := by
        rw [toFlatMatrix_eq_flatten]
        have := chunkRows_flatten dim ((query.drop (w * bs)).take bs) (hsliceRows w)
        rwa [hsliceLen w hw] at this
      rw [hwq]
      have hflatLen : (toFlatMatrix (computeRows dist ((query.drop (w * bs)).take bs)
          dataSet)).length = bs * dataSet.length := by
        rw [toFlatMatrix_eq_flatten,
          flatten_length_uniform dataSet.length _ (computeRows_row_length dist _ dataSet),
          computeRows_length, hsliceLen w hw]
      rw [List.take_of_length_le (le_of_eq hflatLen), toFlatMatrix_eq_flatten,
        splitFlatMatrix_flatten dataSet.length _ (computeRows_row_length dist _ dataSet)
          hds0]
    have hall : ∀ pid ∈ (List.range (numProc - 1)).map fun w => w + 1, pid < k := by
      intro pid hpid
      obtain ⟨w, hwmem, rfl⟩ := List.mem_map.mp hpid
      have := List.mem_range.mp hwmem
      omega
    have hloop := receiveLoop_ok
      (fun pid => if pid < k then
        some ((toFlatMatrix (computeRows dist
          (chunkRows (toFlatMatrix ((query.drop ((pid - 1) * bs)).take bs)) dim bs)
          dataSet)).take (bs * dataSet.length)) else none)
      dataSet.length
      (fun pid => (toFlatMatrix (computeRows dist
        (chunkRows (toFlatMatrix ((query.drop ((pid - 1) * bs)).take bs)) dim bs)
        dataSet)).take (bs * dataSet.length))
      (fun pid => computeRows dist ((query.drop ((pid - 1) * bs)).take bs) dataSet)
      ((List.range (numProc - 1)).map fun w => w + 1)
      (fun pid hpid => by simp [hall pid hpid])
      hworker
    have hflat : (((List.range (numProc - 1)).map fun w => w + 1).flatMap
        fun pid => computeRows dist ((query.drop ((pid - 1) * bs)).take bs) dataSet) =
        ((List.range (k - 1)).flatMap
          fun w => computeRows dist ((query.drop (w * bs)).take bs) dataSet) := by
      rw [List.flatMap, List.flatMap, List.map_map, hk]
      congr 1
    rw [hloop, Option.map_some', hflat, computeRows_flatMap, ← computeRows_append,
      slices_cover bs (k - 1) query]
  · intro hlt
    have hk : k = query.length := min_eq_right (le_of_lt hlt)
    have hnp2 : 2 ≤ numProc := by omega
    unfold gatherPlan
    simp only [Option.map_eq_none']
    apply receiveLoop_stalls
    refine ⟨numProc - 1,
      List.mem_map.mpr ⟨numProc - 2, List.mem_range.mpr (by omega), by omega⟩, ?_⟩
    have hnk : ¬ (numProc - 1 < k) := by omega
    simp [hnk]

theorem gather_assembles_query_order_witness :
    ((2 : Nat) ≤ List.length ([[1], [2], [3]] : List (List Rat)) →
      runPipeline (fun a b => a.headD 0 + b.headD 0) [[1], [2], [3]] [[4]] 2 =
        some (computeRows (fun a b => a.headD 0 + b.headD 0)
          ([[1], [2], [3]] : List (List Rat)) [[4]])) ∧
    (List.length ([[1], [2], [3]] : List (List Rat)) < 2 →
      runPipeline (fun a b => a.headD 0 + b.headD 0)
        ([[1], [2], [3]] : List (List Rat)) [[4]] 2 = none) :=
  gather_assembles_query_order (fun a b => a.headD 0 + b.headD 0)
    [[1], [2], [3]] [[4]] 2 1 (by decide) (by decide)
    (by decide) (by decide) (by decide)

end DistCalc
